import Mathlib

/-!
Verification of the SARIF enrichment transform (`enrich_sarif.py`).

The program reads a SARIF findings document (JSON) and an optional YAML
assessment document, normalizes the findings (default run, placeholder
locations), merges assessment entries into the first run's results list
(skipping empty / "Not Run" entries and duplicate rule ids), finalizes the
tool descriptor, and writes the document back.

The shallow embedding below mirrors the JSON/YAML trees with structures whose
optional fields are `Option`s (a missing key is `none`), and the single Python
function `enrich_sarif` by a pure function from the two in-memory documents
to the updated findings document together with the returned result count.
File input/output and the diagnostic stream are outside the embedding: a
missing, unreadable or unparsable assessment document is the `none` argument.
-/

/-- `artifactLocation` object of a SARIF location: the `uri` field. -/
structure ArtifactLocation where
  uri : String
deriving DecidableEq

/-- `physicalLocation` object: holds the artifact location. -/
structure PhysicalLocation where
  artifactLocation : ArtifactLocation
deriving DecidableEq

/-- One `logicalLocations` entry: the `fullyQualifiedName` field. -/
structure LogicalLocation where
  fullyQualifiedName : String
deriving DecidableEq

/-- A SARIF `location`: `physicalLocation` and `logicalLocations` keys are
optional (`none` models a missing key). -/
structure Location where
  physicalLocation : Option PhysicalLocation
  logicalLocations : Option (List LogicalLocation)
deriving DecidableEq

/-- A SARIF `message` object: the `text` field. -/
structure Message where
  text : String
deriving DecidableEq

/-- One SARIF result (a finding). Every key the Python code tests for
presence is an `Option`. -/
structure SarifResult where
  ruleId : Option String
  level : Option String
  message : Option Message
  locations : Option (List Location)
deriving DecidableEq

/-- The tool `driver` descriptor: `name`, `version` and the `rules` catalog,
all optional. The content of `rules` entries is never inspected by the
program (the field is only deleted), so its entries are left abstract as
strings. -/
structure Driver where
  name : Option String
  version : Option String
  rules : Option (List String)
deriving DecidableEq

/-- The `tool` object of a run: the `driver` key is optional. -/
structure Tool where
  driver : Option Driver
deriving DecidableEq

/-- One SARIF `run`: optional `tool` and optional `results` list. -/
structure Run where
  tool : Option Tool
  results : Option (List SarifResult)
deriving DecidableEq

/-- The findings document: the top-level `runs` key, optional. -/
structure SarifData where
  runs : Option (List Run)
deriving DecidableEq

/-- One YAML assessment entry. The Python code reads the three fields with
`.get(key, "")`, so a missing key is the empty string here. -/
structure Assessment where
  requirement_id : String
  result : String
  message : String
deriving DecidableEq

/-- One `control_evaluations` entry: `control_id` (read with default `""`)
and the optional `assessments` list. -/
structure ControlEvaluation where
  control_id : String
  assessments : Option (List Assessment)
deriving DecidableEq

/-- One `evaluation_suites` entry: the optional `control_evaluations` list. -/
structure EvaluationSuite where
  control_evaluations : Option (List ControlEvaluation)
deriving DecidableEq

/-- The YAML assessment document: the optional `evaluation_suites` key. -/
structure YamlData where
  evaluation_suites : Option (List EvaluationSuite)
deriving DecidableEq

/-- Python's `str.lower` on the labels involved: character-wise lowercase.
(`String.toLower` computes the same string but its byte-position recursion
does not reduce in the kernel, so the characters are mapped directly.) -/
def lowerStr (s : String) : String := String.mk (s.data.map Char.toLower)

/-- `map_result_to_sarif_level` from the source: lowercase the label (an
empty label stays empty, mirroring the falsy guard `result.lower() if result
else ""`) and classify. -/
def map_result_to_sarif_level (result : String) : String :=
  let result_lower := if result.isEmpty then "" else lowerStr result
  if result_lower ∈ ["failed", "error"] then "error"
  else if result_lower ∈ ["warn", "warning", "needs review"] then "warning"
  else if result_lower ∈ ["passed", "pass"] then "note"
  else "none"

/-- The placeholder `physicalLocation` the program injects: `README.md`. -/
def placeholderPhysicalLocation : PhysicalLocation :=
  { artifactLocation := { uri := "README.md" } }

/-- The placeholder location injected for findings with no locations list:
only the `physicalLocation` key is present. -/
def placeholderLocation : Location :=
  { physicalLocation := some placeholderPhysicalLocation
    logicalLocations := none }

/-- Body of the inner normalization loop: a location without a
`physicalLocation` gets the placeholder injected. -/
def fixLocation (loc : Location) : Location :=
  if loc.physicalLocation = none then
    { loc with physicalLocation := some placeholderPhysicalLocation }
  else loc

/-- Body of the normalization loop over existing results: a missing or empty
`locations` list is replaced by the single placeholder location; otherwise
each location is repaired in place by `fixLocation`. -/
def normalizeResult (r : SarifResult) : SarifResult :=
  match r.locations with
  | none => { r with locations := some [placeholderLocation] }
  | some locs =>
      if locs.length = 0 then { r with locations := some [placeholderLocation] }
      else { r with locations := some (locs.map fixLocation) }

/-- The `existing_rule_ids` set: the `ruleId`s present among a results list
(the Python set is modelled by a list queried by membership). -/
def collectRuleIds (results : List SarifResult) : List String :=
  results.filterMap (fun r => r.ruleId)

/-- The SARIF result entry built for one assessment (source lines 110-126). -/
def newSarifResult (rule_id level req_id result message : String) : SarifResult :=
  { ruleId := some rule_id
    level := some level
    message := some { text := if message.isEmpty then req_id ++ ": " ++ result else message }
    locations := some [{ physicalLocation := some placeholderPhysicalLocation
                         logicalLocations := some [{ fullyQualifiedName := rule_id }] }] }

/-- Body of the innermost merge loop: one assessment entry, threading the
state (results list, seen rule ids). Skips entries with an empty requirement
id, an empty result, the literal result "Not Run", or a rule id already
seen; otherwise appends the new result and records its rule id. -/
def processAssessment (control_id : String)
    (st : List SarifResult × List String) (a : Assessment) :
    List SarifResult × List String :=
  if a.requirement_id ≠ "" ∧ a.result ≠ "" ∧ a.result ≠ "Not Run" then
    if control_id ++ "/" ++ a.requirement_id ∈ st.2 then st
    else
      (st.1 ++ [newSarifResult (control_id ++ "/" ++ a.requirement_id)
                  (map_result_to_sarif_level a.result) a.requirement_id a.result a.message],
       st.2 ++ [control_id ++ "/" ++ a.requirement_id])
  else st

/-- The loop over one control evaluation's assessments (skipped when the
`assessments` key is absent). -/
def processControl (st : List SarifResult × List String)
    (c : ControlEvaluation) : List SarifResult × List String :=
  match c.assessments with
  | none => st
  | some as => as.foldl (processAssessment c.control_id) st

/-- The loop over one suite's control evaluations (skipped when the
`control_evaluations` key is absent). -/
def processSuite (st : List SarifResult × List String)
    (s : EvaluationSuite) : List SarifResult × List String :=
  match s.control_evaluations with
  | none => st
  | some cs => cs.foldl processControl st

/-- The whole merge phase (source lines 82-128): `none` models a missing,
unreadable or unparsable assessment document, as well as an empty one, all
of which leave the state untouched. -/
def mergeAssessments (yaml_data : Option YamlData)
    (st : List SarifResult × List String) : List SarifResult × List String :=
  match yaml_data with
  | none => st
  | some y =>
      match y.evaluation_suites with
      | none => st
      | some suites => suites.foldl processSuite st

/-- The tool-descriptor finalization (source lines 130-136): default a
missing or empty `name`, delete the `rules` catalog. -/
def finalizeDriver (d : Driver) : Driver :=
  if d.name = none ∨ d.name = some "" then
    { d with name := some "OSPS Security Assessment", rules := none }
  else { d with rules := none }

/-- Finalization lifted to a run: a run without a tool or without a driver is
left untouched, mirroring the `"tool" in run and "driver" in run["tool"]`
guard. -/
def finalizeRun (r : Run) : Run :=
  match r.tool with
  | none => r
  | some t =>
      match t.driver with
      | none => r
      | some d => { r with tool := some { t with driver := some (finalizeDriver d) } }

/-- The default run inserted when the `runs` list is missing or empty
(source lines 40-48). -/
def defaultRun : Run :=
  { tool := some { driver := some { name := some "OSPS Security Assessment"
                                    version := some "1.0.0"
                                    rules := none } }
    results := some [] }

/-- Source lines 35-48: ensure the `runs` key exists, and insert the default
run when the list is empty. The returned list is never empty. -/
def ensureRuns (s : SarifData) : List Run :=
  let runs := s.runs.getD []
  if runs.isEmpty then [defaultRun] else runs

/-- The whole per-run pipeline on the first run: collect existing rule ids,
normalize existing results, merge the assessments, write the results back
and finalize the tool descriptor. Returns the updated run and the result
count the program reports. -/
def enrichRun (run : Run) (yaml_data : Option YamlData) : Run × Nat :=
  let results0 := run.results.getD []
  let existing_rule_ids := collectRuleIds results0
  let normalized := results0.map normalizeResult
  let st := mergeAssessments yaml_data (normalized, existing_rule_ids)
  (finalizeRun { run with results := some st.1 }, st.1.length)

/-- `enrich_sarif`: the full in-memory transform, from the parsed findings
document and the (optionally available) assessment document to the written
findings document and the returned count. Only the first run is processed;
the remaining runs pass through unchanged. The `[]` branch of the match is
unreachable (`ensureRuns` never returns `[]`). -/
def enrich_sarif (sarif_data : SarifData) (yaml_data : Option YamlData) :
    SarifData × Nat :=
  match ensureRuns sarif_data with
  | [] => (sarif_data, 0)
  | run :: rest =>
      ({ runs := some ((enrichRun run yaml_data).1 :: rest) },
       (enrichRun run yaml_data).2)

/-! ### Derived definitions used by the statements and proofs -/

/-- A finding carries at least one location with a resolvable artifact
reference: the locations list is present and some location has a
`physicalLocation`. -/
def hasResolvableLocation (r : SarifResult) : Bool :=
  match r.locations with
  | none => false
  | some locs => locs.any (fun l => l.physicalLocation.isSome)

/-- A result in fully normalized form: a present, non-empty locations list
whose every location carries a `physicalLocation`.  Everything the pipeline
leaves in the first run's results list satisfies this. -/
def ResultNormalized (r : SarifResult) : Prop :=
  ∃ locs, r.locations = some locs ∧ locs ≠ [] ∧ ∀ l ∈ locs, l.physicalLocation ≠ none

/-- The invariant the merge loop preserves: every accumulated result is
normalized, and every seen rule id occurs among the accumulated results. -/
def MergeInv (st : List SarifResult × List String) : Prop :=
  (∀ r ∈ st.1, ResultNormalized r) ∧ ∀ x ∈ st.2, x ∈ collectRuleIds st.1

/-- The rule id one assessment entry contributes when it passes the skip
filter (empty when it is skipped). -/
def assessmentRuleIds (control_id : String) (a : Assessment) : List String :=
  if a.requirement_id ≠ "" ∧ a.result ≠ "" ∧ a.result ≠ "Not Run" then
    [control_id ++ "/" ++ a.requirement_id]
  else []

/-- All rule ids one control evaluation's assessments can contribute. -/
def controlRuleIds (c : ControlEvaluation) : List String :=
  match c.assessments with
  | none => []
  | some as => as.flatMap (assessmentRuleIds c.control_id)

/-- All rule ids one suite's control evaluations can contribute. -/
def suiteRuleIds (s : EvaluationSuite) : List String :=
  match s.control_evaluations with
  | none => []
  | some cs => cs.flatMap controlRuleIds

/-- All rule ids the assessment document can contribute. -/
def yamlRuleIds (y : Option YamlData) : List String :=
  match y with
  | none => []
  | some yd =>
      match yd.evaluation_suites with
      | none => []
      | some suites => suites.flatMap suiteRuleIds

/-- The spec's `normalize` operation in isolation: ensure a run exists and
repair the first run's findings, touching nothing else. -/
def normalizeDoc (s : SarifData) : SarifData :=
  match ensureRuns s with
  | [] => s
  | run :: rest =>
      { runs := some
          ({ run with results := some ((run.results.getD []).map normalizeResult) } :: rest) }

/-- The spec's `finalize` operation in isolation: finalize the first run's
tool descriptor. -/
def finalizeDoc (s : SarifData) : SarifData :=
  match s.runs with
  | some (run :: rest) => { runs := some (finalizeRun run :: rest) }
  | _ => s

/-! ### Concrete documents for the scenario claims -/

/-- Findings document with zero runs. -/
def emptyRunsSarif : SarifData := { runs := some [] }

/-- Assessment document with one suite, one control `C1`, one assessment
(`R1`, result `Failed`, message `bad`). -/
def oneFailedYaml : YamlData :=
  { evaluation_suites := some [
      { control_evaluations := some [
          { control_id := "C1"
            assessments := some [
              { requirement_id := "R1", result := "Failed", message := "bad" } ] } ] } ] }

/-- A findings document with two runs whose second run has no results list. -/
def twoRunsNoResults : SarifData :=
  { runs := some [ { tool := none, results := some [] },
                   { tool := none, results := none } ] }

/-- A findings document with two runs whose second run holds a finding with
no locations. -/
def twoRunsNoLocation : SarifData :=
  { runs := some [ { tool := none, results := some [] },
                   { tool := none
                     results := some [ { ruleId := some "X/Y", level := some "note",
                                         message := none, locations := none } ] } ] }

/-- A findings document whose first run's tool driver carries a rules
catalog. -/
def rulesCatalogSarif : SarifData :=
  { runs := some [ { tool := some { driver := some { name := some "scanner",
                                                     version := some "2.0",
                                                     rules := some ["rule-a"] } }
                     results := some [] } ] }

/-- A driver with no name and a legacy rules catalog. -/
def unnamedDriver : Driver := { name := none, version := none, rules := some ["legacy-rule"] }

/-- A run whose tool driver is `unnamedDriver`. -/
def unnamedDriverRun : Run := { tool := some { driver := some unnamedDriver }, results := none }

/-- A findings document with one run holding one finding without locations. -/
def noLocSarif : SarifData :=
  { runs := some [ { tool := none
                     results := some [ { ruleId := some "A/B", level := some "note",
                                         message := none, locations := none } ] } ] }

/-! ### Basic lemmas -/

theorem map_eq_self_of {α : Type} (f : α → α) (l : List α) (h : ∀ x ∈ l, f x = x) :
    l.map f = l := by
  induction l with
  | nil => rfl
  | cons a t ih =>
      simp only [List.map_cons, h a (by simp)]
      rw [ih (fun x hx => h x (by simp [hx]))]

theorem fixLocation_physical (l : Location) : (fixLocation l).physicalLocation ≠ none := by
  unfold fixLocation
  split_ifs with h
  · simp
  · exact h

theorem placeholderLocation_physical : placeholderLocation.physicalLocation ≠ none := by
  simp [placeholderLocation]

theorem normalizeResult_normalized (r : SarifResult) : ResultNormalized (normalizeResult r) := by
  obtain ⟨rid, lvl, msg, locOpt⟩ := r
  cases locOpt with
  | none =>
      exact ⟨[placeholderLocation], rfl, by simp,
        fun l hl => by simp at hl; rw [hl]; exact placeholderLocation_physical⟩
  | some locs =>
      show ResultNormalized (if locs.length = 0 then _ else _)
      split_ifs with hlen
      · exact ⟨[placeholderLocation], rfl, by simp,
          fun l hl => by simp at hl; rw [hl]; exact placeholderLocation_physical⟩
      · refine ⟨locs.map fixLocation, rfl, by simpa using hlen, ?_⟩
        intro l hl
        simp at hl
        obtain ⟨l0, _, rfl⟩ := hl
        exact fixLocation_physical l0

theorem normalizeResult_id (r : SarifResult) (h : ResultNormalized r) :
    normalizeResult r = r := by
  obtain ⟨locs, hl, hne, hall⟩ := h
  have hmap : locs.map fixLocation = locs := by
    refine map_eq_self_of _ _ (fun l hmem => ?_)
    unfold fixLocation
    rw [if_neg (hall l hmem)]
  obtain ⟨rid, lvl, msg, locOpt⟩ := r
  simp only at hl
  subst hl
  show (if locs.length = 0 then _ else _) = _
  rw [if_neg (by simpa [List.length_eq_zero] using hne), hmap]

theorem map_normalizeResult_id (L : List SarifResult) (h : ∀ r ∈ L, ResultNormalized r) :
    L.map normalizeResult = L :=
  map_eq_self_of _ _ (fun r hr => normalizeResult_id r (h r hr))

theorem normalizeResult_ruleId (r : SarifResult) : (normalizeResult r).ruleId = r.ruleId := by
  obtain ⟨rid, lvl, msg, locOpt⟩ := r
  cases locOpt with
  | none => rfl
  | some locs =>
      by_cases hlen : locs.length = 0 <;> simp [normalizeResult, hlen]

theorem collectRuleIds_map_normalize (L : List SarifResult) :
    collectRuleIds (L.map normalizeResult) = collectRuleIds L := by
  unfold collectRuleIds
  rw [List.filterMap_map]
  congr 1
  funext r
  simp [Function.comp, normalizeResult_ruleId]

theorem collectRuleIds_append (L M : List SarifResult) :
    collectRuleIds (L ++ M) = collectRuleIds L ++ collectRuleIds M :=
  List.filterMap_append L M _

theorem newSarifResult_normalized (a b c d e : String) :
    ResultNormalized (newSarifResult a b c d e) := by
  refine ⟨_, rfl, by simp, ?_⟩
  intro l hl
  simp [newSarifResult] at hl
  rw [hl]
  simp

theorem newSarifResult_ruleId (a b c d e : String) :
    (newSarifResult a b c d e).ruleId = some a := rfl

/-! ### Lemmas about one merge step -/

theorem processAssessment_cases (cid : String) (st : List SarifResult × List String)
    (a : Assessment) :
    processAssessment cid st a = st ∨
      (a.requirement_id ≠ "" ∧ a.result ≠ "" ∧ a.result ≠ "Not Run" ∧
        cid ++ "/" ++ a.requirement_id ∉ st.2 ∧
        processAssessment cid st a =
          (st.1 ++ [newSarifResult (cid ++ "/" ++ a.requirement_id)
              (map_result_to_sarif_level a.result) a.requirement_id a.result a.message],
           st.2 ++ [cid ++ "/" ++ a.requirement_id])) := by
  unfold processAssessment
  split_ifs with h1 h2
  · exact Or.inl rfl
  · exact Or.inr ⟨h1.1, h1.2.1, h1.2.2, h2, rfl⟩
  · exact Or.inl rfl

theorem foldl_pres {α σ : Type} {P : σ → Prop} (f : σ → α → σ)
    (hf : ∀ s a, P s → P (f s a)) :
    ∀ (l : List α) (s : σ), P s → P (l.foldl f s) := by
  intro l
  induction l with
  | nil => intro s hs; exact hs
  | cons a t ih => intro s hs; exact ih _ (hf s a hs)

theorem mem_seen_processAssessment (cid : String) (st : List SarifResult × List String)
    (a : Assessment) (x : String) (hx : x ∈ st.2) : x ∈ (processAssessment cid st a).2 := by
  rcases processAssessment_cases cid st a with h | ⟨_, _, _, _, h⟩ <;> rw [h]
  · exact hx
  · exact List.mem_append_left _ hx

theorem mem_seen_processControl (st : List SarifResult × List String)
    (c : ControlEvaluation) (x : String) (hx : x ∈ st.2) : x ∈ (processControl st c).2 := by
  unfold processControl
  cases hA : c.assessments with
  | none => exact hx
  | some as =>
      exact foldl_pres _ (fun s a hs => mem_seen_processAssessment c.control_id s a x hs)
        as st hx

theorem mem_seen_processSuite (st : List SarifResult × List String)
    (s : EvaluationSuite) (x : String) (hx : x ∈ st.2) : x ∈ (processSuite st s).2 := by
  unfold processSuite
  cases hC : s.control_evaluations with
  | none => exact hx
  | some cs =>
      exact foldl_pres _ (fun st c hs => mem_seen_processControl st c x hs) cs st hx

theorem cov_processAssessment (cid : String) (st : List SarifResult × List String)
    (a : Assessment) : ∀ x ∈ assessmentRuleIds cid a, x ∈ (processAssessment cid st a).2 := by
  intro x hx
  unfold assessmentRuleIds at hx
  split_ifs at hx with h
  · simp at hx
    subst hx
    unfold processAssessment
    rw [if_pos h]
    split_ifs with h2
    · exact h2
    · simp
  · simp at hx

theorem cov_assessList (cid : String) (as : List Assessment) :
    ∀ (st : List SarifResult × List String), ∀ x ∈ as.flatMap (assessmentRuleIds cid),
      x ∈ (as.foldl (processAssessment cid) st).2 := by
  induction as with
  | nil => intro st x hx; simp at hx
  | cons a t ih =>
      intro st x hx
      rw [List.flatMap_cons] at hx
      rcases List.mem_append.mp hx with h | h
      · exact foldl_pres _ (fun s b hs => mem_seen_processAssessment cid s b x hs) t _
          (cov_processAssessment cid st a x h)
      · exact ih (processAssessment cid st a) x h

theorem cov_processControl (st : List SarifResult × List String) (c : ControlEvaluation) :
    ∀ x ∈ controlRuleIds c, x ∈ (processControl st c).2 := by
  intro x hx
  unfold controlRuleIds at hx
  unfold processControl
  cases hA : c.assessments with
  | none => rw [hA] at hx; simp at hx
  | some as => rw [hA] at hx; exact cov_assessList c.control_id as st x hx

theorem cov_controlList (cs : List ControlEvaluation) :
    ∀ (st : List SarifResult × List String), ∀ x ∈ cs.flatMap controlRuleIds,
      x ∈ (cs.foldl processControl st).2 := by
  induction cs with
  | nil => intro st x hx; simp at hx
  | cons c t ih =>
      intro st x hx
      rw [List.flatMap_cons] at hx
      rcases List.mem_append.mp hx with h | h
      · exact foldl_pres _ (fun s b hs => mem_seen_processControl s b x hs) t _
          (cov_processControl st c x h)
      · exact ih (processControl st c) x h

theorem cov_processSuite (st : List SarifResult × List String) (s : EvaluationSuite) :
    ∀ x ∈ suiteRuleIds s, x ∈ (processSuite st s).2 := by
  intro x hx
  unfold suiteRuleIds at hx
  unfold processSuite
  cases hC : s.control_evaluations with
  | none => rw [hC] at hx; simp at hx
  | some cs => rw [hC] at hx; exact cov_controlList cs st x hx

theorem cov_suiteList (ss : List EvaluationSuite) :
    ∀ (st : List SarifResult × List String), ∀ x ∈ ss.flatMap suiteRuleIds,
      x ∈ (ss.foldl processSuite st).2 := by
  induction ss with
  | nil => intro st x hx; simp at hx
  | cons s t ih =>
      intro st x hx
      rw [List.flatMap_cons] at hx
      rcases List.mem_append.mp hx with h | h
      · exact foldl_pres _ (fun st2 b hs => mem_seen_processSuite st2 b x hs) t _
          (cov_processSuite st s x h)
      · exact ih (processSuite st s) x h

theorem cov_merge (y : Option YamlData) (st : List SarifResult × List String) :
    ∀ x ∈ yamlRuleIds y, x ∈ (mergeAssessments y st).2 := by
  intro x hx
  cases y with
  | none => simp [yamlRuleIds] at hx
  | some yd =>
      obtain ⟨suitesOpt⟩ := yd
      cases suitesOpt with
      | none => simp [yamlRuleIds] at hx
      | some suites =>
          simp only [yamlRuleIds] at hx
          exact cov_suiteList suites st x hx

/-! ### The merge skips everything it has already seen -/

theorem skip_processAssessment (cid : String) (st : List SarifResult × List String)
    (a : Assessment) (h : ∀ x ∈ assessmentRuleIds cid a, x ∈ st.2) :
    processAssessment cid st a = st := by
  unfold processAssessment
  split_ifs with h1 h2
  · rfl
  · exfalso
    apply h2
    apply h
    unfold assessmentRuleIds
    rw [if_pos h1]
    simp
  · rfl

theorem skip_assessList (cid : String) (as : List Assessment) :
    ∀ (st : List SarifResult × List String),
      (∀ x ∈ as.flatMap (assessmentRuleIds cid), x ∈ st.2) →
      as.foldl (processAssessment cid) st = st := by
  induction as with
  | nil => intro st _; rfl
  | cons a t ih =>
      intro st h
      have hstep : processAssessment cid st a = st :=
        skip_processAssessment cid st a
          (fun x hx => h x (by rw [List.flatMap_cons]; exact List.mem_append_left _ hx))
      rw [List.foldl_cons, hstep]
      exact ih st (fun x hx => h x (by rw [List.flatMap_cons]; exact List.mem_append_right _ hx))

theorem skip_processControl (st : List SarifResult × List String) (c : ControlEvaluation)
    (h : ∀ x ∈ controlRuleIds c, x ∈ st.2) : processControl st c = st := by
  unfold processControl
  unfold controlRuleIds at h
  cases hA : c.assessments with
  | none => rfl
  | some as =>
      rw [hA] at h
      exact skip_assessList c.control_id as st h

theorem skip_controlList (cs : List ControlEvaluation) :
    ∀ (st : List SarifResult × List String),
      (∀ x ∈ cs.flatMap controlRuleIds, x ∈ st.2) →
      cs.foldl processControl st = st := by
  induction cs with
  | nil => intro st _; rfl
  | cons c t ih =>
      intro st h
      have hstep : processControl st c = st :=
        skip_processControl st c
          (fun x hx => h x (by rw [List.flatMap_cons]; exact List.mem_append_left _ hx))
      rw [List.foldl_cons, hstep]
      exact ih st (fun x hx => h x (by rw [List.flatMap_cons]; exact List.mem_append_right _ hx))

theorem skip_processSuite (st : List SarifResult × List String) (s : EvaluationSuite)
    (h : ∀ x ∈ suiteRuleIds s, x ∈ st.2) : processSuite st s = st := by
  unfold processSuite
  unfold suiteRuleIds at h
  cases hC : s.control_evaluations with
  | none => rfl
  | some cs =>
      rw [hC] at h
      exact skip_controlList cs st h

theorem skip_suiteList (ss : List EvaluationSuite) :
    ∀ (st : List SarifResult × List String),
      (∀ x ∈ ss.flatMap suiteRuleIds, x ∈ st.2) →
      ss.foldl processSuite st = st := by
  induction ss with
  | nil => intro st _; rfl
  | cons s t ih =>
      intro st h
      have hstep : processSuite st s = st :=
        skip_processSuite st s
          (fun x hx => h x (by rw [List.flatMap_cons]; exact List.mem_append_left _ hx))
      rw [List.foldl_cons, hstep]
      exact ih st (fun x hx => h x (by rw [List.flatMap_cons]; exact List.mem_append_right _ hx))

theorem skip_merge (y : Option YamlData) (st : List SarifResult × List String)
    (h : ∀ x ∈ yamlRuleIds y, x ∈ st.2) : mergeAssessments y st = st := by
  cases y with
  | none => rfl
  | some yd =>
      obtain ⟨suitesOpt⟩ := yd
      cases suitesOpt with
      | none => rfl
      | some suites =>
          simp only [yamlRuleIds] at h
          exact skip_suiteList suites st h

/-! ### The merge invariant -/

theorem inv_processAssessment (cid : String) (st : List SarifResult × List String)
    (a : Assessment) (h : MergeInv st) : MergeInv (processAssessment cid st a) := by
  rcases processAssessment_cases cid st a with heq | ⟨_, _, _, _, heq⟩ <;> rw [heq]
  · exact h
  · constructor
    · intro r hr
      rcases List.mem_append.mp hr with hmem | hmem
      · exact h.1 r hmem
      · simp at hmem
        rw [hmem]
        exact newSarifResult_normalized _ _ _ _ _
    · intro x hx
      rcases List.mem_append.mp hx with hmem | hmem
      · rw [collectRuleIds_append]
        exact List.mem_append_left _ (h.2 x hmem)
      · simp at hmem
        rw [collectRuleIds_append, hmem]
        apply List.mem_append_right
        simp [collectRuleIds, newSarifResult]

theorem inv_processControl (st : List SarifResult × List String) (c : ControlEvaluation)
    (h : MergeInv st) : MergeInv (processControl st c) := by
  unfold processControl
  cases c.assessments with
  | none => exact h
  | some as =>
      exact foldl_pres _ (fun s a hs => inv_processAssessment c.control_id s a hs) as st h

theorem inv_processSuite (st : List SarifResult × List String) (s : EvaluationSuite)
    (h : MergeInv st) : MergeInv (processSuite st s) := by
  unfold processSuite
  cases s.control_evaluations with
  | none => exact h
  | some cs => exact foldl_pres _ (fun st2 c hs => inv_processControl st2 c hs) cs st h

theorem inv_merge (y : Option YamlData) (st : List SarifResult × List String)
    (h : MergeInv st) : MergeInv (mergeAssessments y st) := by
  cases y with
  | none => exact h
  | some yd =>
      obtain ⟨suitesOpt⟩ := yd
      cases suitesOpt with
      | none => exact h
      | some suites => exact foldl_pres _ (fun st2 s hs => inv_processSuite st2 s hs) suites st h

/-! ### Finalization lemmas -/

theorem finalizeDriver_idem (d : Driver) :
    finalizeDriver (finalizeDriver d) = finalizeDriver d := by
  obtain ⟨nameOpt, ver, rulesOpt⟩ := d
  by_cases h : nameOpt = none ∨ nameOpt = some ""
  · simp [finalizeDriver, h]
  · simp [finalizeDriver, h]

theorem finalizeRun_results (r : Run) : (finalizeRun r).results = r.results := by
  obtain ⟨toolOpt, results⟩ := r
  cases toolOpt with
  | none => rfl
  | some t =>
      obtain ⟨driverOpt⟩ := t
      cases driverOpt with
      | none => rfl
      | some d => rfl

theorem finalizeRun_idem (r : Run) : finalizeRun (finalizeRun r) = finalizeRun r := by
  obtain ⟨toolOpt, results⟩ := r
  cases toolOpt with
  | none => rfl
  | some t =>
      obtain ⟨driverOpt⟩ := t
      cases driverOpt with
      | none => rfl
      | some d =>
          show finalizeRun { tool := some { driver := some (finalizeDriver d) },
                             results := results } = _
          unfold finalizeRun
          simp [finalizeDriver_idem]

theorem run_eta (r : Run) (v : Option (List SarifResult)) (h : r.results = v) :
    { r with results := v } = r := by
  obtain ⟨toolOpt, results⟩ := r
  simp only at h
  rw [← h]

theorem ensureRuns_ne_nil (s : SarifData) : ensureRuns s ≠ [] := by
  show (if (s.runs.getD []).isEmpty then [defaultRun] else s.runs.getD []) ≠ []
  split_ifs with h
  · simp
  · intro hc
    exact h (by simp [hc])

/-! ### The per-run pipeline and its idempotence -/

theorem enrichRun_eq (run : Run) (y : Option YamlData) :
    enrichRun run y =
      (finalizeRun
        { run with
          results := some (mergeAssessments y
            ((run.results.getD []).map normalizeResult,
              collectRuleIds (run.results.getD []))).1 },
       (mergeAssessments y ((run.results.getD []).map normalizeResult,
          collectRuleIds (run.results.getD []))).1.length) := rfl

theorem enrichRun_idem (run : Run) (y : Option YamlData) :
    enrichRun (enrichRun run y).1 y = enrichRun run y := by
  have hinv0 : MergeInv ((run.results.getD []).map normalizeResult,
      collectRuleIds (run.results.getD [])) := by
    constructor
    · intro r hr
      simp only at hr
      rcases List.mem_map.mp hr with ⟨r0, _, rfl⟩
      exact normalizeResult_normalized r0
    · intro x hx
      simp only at hx ⊢
      rw [collectRuleIds_map_normalize]
      exact hx
  have hinv1 : MergeInv (mergeAssessments y ((run.results.getD []).map normalizeResult,
      collectRuleIds (run.results.getD []))) :=
    inv_merge _ _ hinv0
  set st1 := mergeAssessments y ((run.results.getD []).map normalizeResult,
      collectRuleIds (run.results.getD [])) with hst1
  have hcov : ∀ x ∈ yamlRuleIds y, x ∈ st1.2 := fun x hx => cov_merge y _ x hx
  have hres1 : (enrichRun run y).1.results = some st1.1 := by
    rw [enrichRun_eq, ← hst1]
    exact finalizeRun_results _
  have hmapid : st1.1.map normalizeResult = st1.1 := map_normalizeResult_id _ hinv1.1
  have hskip : mergeAssessments y (st1.1, collectRuleIds st1.1) = (st1.1, collectRuleIds st1.1) :=
    skip_merge y _ (fun x hx => hinv1.2 x (hcov x hx))
  have hfin : finalizeRun (enrichRun run y).1 = (enrichRun run y).1 := by
    rw [enrichRun_eq, ← hst1]
    exact finalizeRun_idem _
  rw [enrichRun_eq (enrichRun run y).1 y, hres1]
  simp only [Option.getD_some]
  rw [hmapid, hskip]
  simp only
  rw [run_eta _ _ hres1, hfin]
  rw [enrichRun_eq run y, ← hst1]

/-! ### Document-level lemmas -/

theorem enrich_sarif_eq (s : SarifData) (y : Option YamlData) (run : Run) (rest : List Run)
    (h : ensureRuns s = run :: rest) :
    enrich_sarif s y =
      ({ runs := some ((enrichRun run y).1 :: rest) }, (enrichRun run y).2) := by
  unfold enrich_sarif
  rw [h]

theorem enrichRun_results_normalized (run : Run) (y : Option YamlData) :
    ∃ R, (enrichRun run y).1.results = some R ∧ ∀ r ∈ R, ResultNormalized r := by
  have hinv0 : MergeInv ((run.results.getD []).map normalizeResult,
      collectRuleIds (run.results.getD [])) := by
    constructor
    · intro r hr
      simp only at hr
      rcases List.mem_map.mp hr with ⟨r0, _, rfl⟩
      exact normalizeResult_normalized r0
    · intro x hx
      simp only at hx ⊢
      rw [collectRuleIds_map_normalize]
      exact hx
  have hinv1 := inv_merge y _ hinv0
  refine ⟨_, ?_, hinv1.1⟩
  rw [enrichRun_eq]
  exact finalizeRun_results _

theorem resolvable_of_normalized (r : SarifResult) (h : ResultNormalized r) :
    hasResolvableLocation r = true := by
  obtain ⟨locs, hl, hne, hall⟩ := h
  obtain ⟨rid, lvl, msg, locOpt⟩ := r
  simp only at hl
  subst hl
  show locs.any (fun l => l.physicalLocation.isSome) = true
  rcases locs with _ | ⟨l0, ltl⟩
  · exact absurd rfl hne
  · simp only [List.any_cons, Bool.or_eq_true]
    exact Or.inl (Option.isSome_iff_ne_none.mpr (hall l0 (by simp)))

theorem level_none_of_lower_notrun (r : String) (h : lowerStr r = "not run") :
    map_result_to_sarif_level r = "none" := by
  have hne : r.isEmpty = false := by
    cases hB : r.isEmpty with
    | false => rfl
    | true =>
        exfalso
        have hr : r = "" := by
          have := String.isEmpty_iff r
          exact this.mp hB
        rw [hr] at h
        exact absurd h (by decide)
  simp only [map_result_to_sarif_level, hne, Bool.false_eq_true, if_false, h]
  decide

/-! ### The claims -/

/-- C1: for a findings document with zero runs and an assessment document
with one suite, one control `C1`, one assessment (`R1`, result `Failed`,
message `bad`), enrich produces a document with exactly one run, whose
results list holds exactly one result with ruleId `C1/R1`, level `error`,
message text `bad`, and one location whose physicalLocation artifact uri is
`README.md`; the reported count is 1. -/
theorem enrich_scenario_one_failed :
    (enrich_sarif emptyRunsSarif (some oneFailedYaml)).1.runs =
      some [ { tool := some { driver := some { name := some "OSPS Security Assessment"
                                               version := some "1.0.0"
                                               rules := none } }
               results := some [ { ruleId := some "C1/R1"
                                   level := some "error"
                                   message := some { text := "bad" }
                                   locations := some [
                                     ⟨some { artifactLocation := { uri := "README.md" } },
                                      some [ { fullyQualifiedName := "C1/R1" } ]⟩ ] } ] } ] ∧
    (enrich_sarif emptyRunsSarif (some oneFailedYaml)).2 = 1 := by
  decide

/-- C2: the merge is idempotent — running the whole enrichment a second time
on the output of the first run, against the same assessment document, yields
the same document and the same result count: nothing is appended again. -/
theorem enrich_sarif_idempotent (s : SarifData) (y : Option YamlData) :
    enrich_sarif (enrich_sarif s y).1 y = enrich_sarif s y := by
  rcases hE : ensureRuns s with _ | ⟨run, rest⟩
  · exact absurd hE (ensureRuns_ne_nil s)
  · rw [enrich_sarif_eq s y run rest hE]
    rw [enrich_sarif_eq { runs := some ((enrichRun run y).1 :: rest) } y
      (enrichRun run y).1 rest rfl]
    rw [enrichRun_idem]

/-- C3: the result-label-to-severity mapping is a total function of the
label's lowercase form: `failed`/`error` give `error`; `warn`/`warning`/
`needs review` give `warning`; `passed`/`pass` give `note`; everything else,
the empty string included, gives `none`. -/
theorem level_mapping_total_case_insensitive (s : String) :
    map_result_to_sarif_level s =
      if lowerStr s = "failed" ∨ lowerStr s = "error" then "error"
      else if lowerStr s = "warn" ∨ lowerStr s = "warning" ∨ lowerStr s = "needs review" then
        "warning"
      else if lowerStr s = "passed" ∨ lowerStr s = "pass" then "note"
      else "none" := by
  by_cases h : s.isEmpty
  · have hs : s = "" := (String.isEmpty_iff s).mp h
    subst hs
    decide
  · have hne : s.isEmpty = false := by
      cases hB : s.isEmpty with
      | false => rfl
      | true => exact absurd hB h
    simp only [map_result_to_sarif_level, hne, Bool.false_eq_true, if_false,
      List.mem_cons, List.mem_singleton, List.not_mem_nil, or_false]

/-- C4: an assessment entry whose requirement id is empty, whose result
label is empty, or whose result label is the sentinel `Not Run`, adds no
finding: the merge step leaves the state unchanged. -/
theorem skipped_assessment_adds_nothing (cid : String)
    (st : List SarifResult × List String) (a : Assessment)
    (h : a.requirement_id = "" ∨ a.result = "" ∨ a.result = "Not Run") :
    processAssessment cid st a = st := by
  have hc : ¬(a.requirement_id ≠ "" ∧ a.result ≠ "" ∧ a.result ≠ "Not Run") := by tauto
  unfold processAssessment
  rw [if_neg hc]

/-- Witness for C4: a concrete assessment with an empty requirement id is
skipped. -/
theorem skipped_assessment_adds_nothing_witness :
    processAssessment "OSPS-AC" ([], [])
      { requirement_id := "", result := "Failed", message := "m" } = ([], []) :=
  skipped_assessment_adds_nothing "OSPS-AC" ([], []) _ (Or.inl rfl)

/-- C5: a finding whose locations list is absent or empty gets exactly the
one placeholder location; a finding with a non-empty locations list keeps
its location count, each location lacking a physicalLocation receiving the
placeholder in place and each location already carrying one staying as it
is. -/
theorem normalize_placeholder_locations (r : SarifResult) :
    ((r.locations = none ∨ r.locations = some []) →
        (normalizeResult r).locations = some [placeholderLocation]) ∧
    (∀ locs, r.locations = some locs → locs ≠ [] →
        ∃ locs2, (normalizeResult r).locations = some locs2 ∧
          locs2.length = locs.length ∧
          List.Forall₂ (fun l l2 =>
            (l.physicalLocation = none →
              l2 = { l with physicalLocation := some placeholderPhysicalLocation }) ∧
            (l.physicalLocation ≠ none → l2 = l)) locs locs2) := by
  obtain ⟨rid, lvl, msg, locOpt⟩ := r
  constructor
  · intro h
    rcases h with h | h <;> simp only at h <;> subst h <;> simp [normalizeResult]
  · intro locs hl hne
    simp only at hl
    subst hl
    have hlen : ¬ locs.length = 0 := by simpa [List.length_eq_zero] using hne
    refine ⟨locs.map fixLocation, by simp [normalizeResult, hlen], by simp, ?_⟩
    rw [List.forall₂_map_right_iff, List.forall₂_same]
    intro l _
    constructor
    · intro hphys
      unfold fixLocation
      rw [if_pos hphys]
    · intro hphys
      unfold fixLocation
      rw [if_neg hphys]

/-- C9: finalization of a run whose tool descriptor is present leaves a
driver with no rules catalog and a non-empty name: a missing or empty name
becomes `OSPS Security Assessment`, any other name is kept. -/
theorem finalize_tool_descriptor (r : Run) (t : Tool) (d : Driver)
    (ht : r.tool = some t) (hd : t.driver = some d) :
    ∃ t2 d2, (finalizeRun r).tool = some t2 ∧ t2.driver = some d2 ∧
      d2.rules = none ∧ d2.name ≠ none ∧ d2.name ≠ some "" ∧
      ((d.name = none ∨ d.name = some "") → d2.name = some "OSPS Security Assessment") ∧
      (¬(d.name = none ∨ d.name = some "") → d2.name = d.name) := by
  obtain ⟨toolOpt, results⟩ := r
  obtain ⟨driverOpt⟩ := t
  simp only at ht hd
  subst ht
  subst hd
  refine ⟨{ driver := some (finalizeDriver d) }, finalizeDriver d, rfl, rfl, ?_, ?_, ?_, ?_, ?_⟩
  all_goals obtain ⟨nameOpt, ver, rulesOpt⟩ := d
  all_goals by_cases h : nameOpt = none ∨ nameOpt = some ""
  all_goals push_neg at h
  all_goals simp_all [finalizeDriver]

/-- Witness for C9 at a run whose driver has no name and a rules catalog. -/
theorem finalize_tool_descriptor_witness :
    ∃ t2 d2, (finalizeRun unnamedDriverRun).tool = some t2 ∧ t2.driver = some d2 ∧
      d2.rules = none ∧ d2.name ≠ none ∧ d2.name ≠ some "" ∧
      ((unnamedDriver.name = none ∨ unnamedDriver.name = some "") →
        d2.name = some "OSPS Security Assessment") ∧
      (¬(unnamedDriver.name = none ∨ unnamedDriver.name = some "") →
        d2.name = unnamedDriver.name) :=
  finalize_tool_descriptor unnamedDriverRun { driver := some unnamedDriver } unnamedDriver rfl rfl

/-- C10: the `Not Run` skip test is case-sensitive: an assessment whose
result differs from `Not Run` only in letter case (lowercase form
`not run`, but not the exact sentinel) and whose rule id is new is appended
as a finding with severity level `none`. -/
theorem notrun_skip_case_sensitive (cid : String) (st : List SarifResult × List String)
    (a : Assessment) (h1 : a.requirement_id ≠ "") (h2 : lowerStr a.result = "not run")
    (h3 : a.result ≠ "Not Run") (h4 : cid ++ "/" ++ a.requirement_id ∉ st.2) :
    processAssessment cid st a =
      (st.1 ++ [newSarifResult (cid ++ "/" ++ a.requirement_id) "none"
          a.requirement_id a.result a.message],
       st.2 ++ [cid ++ "/" ++ a.requirement_id]) := by
  have hres : a.result ≠ "" := by
    intro hc
    rw [hc] at h2
    exact absurd h2 (by decide)
  unfold processAssessment
  rw [if_pos ⟨h1, hres, h3⟩, if_neg h4, level_none_of_lower_notrun a.result h2]

/-- Witness for C10 at the concrete label `not run`. -/
theorem notrun_skip_case_sensitive_witness :
    processAssessment "C1" ([], [])
        { requirement_id := "R1", result := "not run", message := "" } =
      ([newSarifResult "C1/R1" "none" "R1" "not run" ""], ["C1/R1"]) :=
  notrun_skip_case_sensitive "C1" ([], []) _ (by decide) (by decide) (by decide) (by simp)

/-- Counterexample to C6 as stated: in a document with two runs, a finding
of the second run keeps its missing location — only the first run is
processed. -/
theorem enrich_second_run_location_untouched :
    ¬ (∀ run ∈ (enrich_sarif twoRunsNoLocation none).1.runs.getD [],
        ∀ r ∈ run.results.getD [], hasResolvableLocation r = true) := by
  decide

/-- C6 (amended to the first run): after processing, every finding of the
output document's first run carries at least one location with a resolvable
artifact reference. -/
theorem enrich_first_run_locations (s : SarifData) (y : Option YamlData)
    (run : Run) (rest : List Run)
    (h : (enrich_sarif s y).1.runs = some (run :: rest)) :
    ∀ r ∈ run.results.getD [], hasResolvableLocation r = true := by
  rcases hE : ensureRuns s with _ | ⟨run0, rest0⟩
  · exact absurd hE (ensureRuns_ne_nil s)
  · rw [enrich_sarif_eq s y run0 rest0 hE] at h
    simp only [Option.some.injEq, List.cons.injEq] at h
    obtain ⟨hrun, _⟩ := h
    obtain ⟨R, hR, hnorm⟩ := enrichRun_results_normalized run0 y
    intro r hr
    rw [← hrun, hR] at hr
    simp only [Option.getD_some] at hr
    exact resolvable_of_normalized r (hnorm r hr)

/-- Witness for C6 (amended): the unlocated finding of `noLocSarif` comes
out with the placeholder location. -/
theorem enrich_first_run_locations_witness :
    hasResolvableLocation { ruleId := some "A/B", level := some "note",
                            message := none, locations := some [placeholderLocation] } = true :=
  enrich_first_run_locations noLocSarif none
    { tool := none
      results := some [ { ruleId := some "A/B", level := some "note",
                          message := none, locations := some [placeholderLocation] } ] }
    [] (by decide) _ (by decide)

/-- Counterexample to C7 as stated: in a document with two runs, the second
run's missing results list stays missing — only the first run gets the
default. -/
theorem enrich_second_run_results_untouched :
    ¬ (∀ run ∈ (enrich_sarif twoRunsNoResults none).1.runs.getD [],
        run.results.isSome = true) := by
  decide

/-- C7 (amended to the first run): the output document always has at least
one run; its first run has a results list present, and when the input had no
runs the first run is the inserted default run (tool name
`OSPS Security Assessment`, version `1.0.0`) and the only run. -/
theorem enrich_ensures_first_run (s : SarifData) (y : Option YamlData) :
    ∃ run rest, (enrich_sarif s y).1.runs = some (run :: rest) ∧
      run.results.isSome = true ∧
      ((s.runs = none ∨ s.runs = some []) →
        run.tool = some { driver := some { name := some "OSPS Security Assessment"
                                           version := some "1.0.0"
                                           rules := none } } ∧
        rest = []) := by
  rcases hE : ensureRuns s with _ | ⟨run0, rest0⟩
  · exact absurd hE (ensureRuns_ne_nil s)
  · refine ⟨(enrichRun run0 y).1, rest0, ?_, ?_, ?_⟩
    · rw [enrich_sarif_eq s y run0 rest0 hE]
    · obtain ⟨R, hR, _⟩ := enrichRun_results_normalized run0 y
      rw [hR]
      rfl
    · intro hs
      have hdef : ensureRuns s = [defaultRun] := by
        rcases hs with hs | hs <;> simp [ensureRuns, hs]
      rw [hE] at hdef
      injection hdef with h1 h2
      subst h1
      subst h2
      exact ⟨rfl, rfl⟩

/-- Counterexample to C8 as stated: with no assessment document, the output
is not the normalized document alone — finalization still strips the rules
catalog from the tool descriptor. -/
theorem enrich_no_yaml_not_only_normalized :
    (enrich_sarif rulesCatalogSarif none).1 ≠ normalizeDoc rulesCatalogSarif := by
  decide

/-- C8 (amended): with no assessment document available (missing path,
non-existing file or parse failure), no results are added — the output is
exactly the normalized document with the tool descriptor finalized, and the
reported count is the first run's normalized result count. -/
theorem enrich_no_assessment (s : SarifData) :
    (enrich_sarif s none).1 = finalizeDoc (normalizeDoc s) ∧
    ∀ run rest, (normalizeDoc s).runs = some (run :: rest) →
      (enrich_sarif s none).2 = (run.results.getD []).length := by
  rcases hE : ensureRuns s with _ | ⟨run0, rest0⟩
  · exact absurd hE (ensureRuns_ne_nil s)
  · have hN : normalizeDoc s =
        { runs := some ({ run0 with
            results := some ((run0.results.getD []).map normalizeResult) } :: rest0) } := by
      unfold normalizeDoc
      rw [hE]
    constructor
    · rw [enrich_sarif_eq s none run0 rest0 hE, hN]
      rfl
    · intro run rest h
      rw [hN] at h
      simp only [Option.some.injEq, List.cons.injEq] at h
      obtain ⟨hrun, _⟩ := h
      rw [enrich_sarif_eq s none run0 rest0 hE, ← hrun]
      rfl
